import Mathlib

/-!
Verification of the go-spectrogram pipeline (file `main.go`).

The Go program renders a spectrogram of a mono PCM signal.  This file gives a
shallow embedding of its data model and operations:

* colors (`color.RGBA`) become `RGBA`, a record of four naturals (each channel
  of the source is a `uint8`; every channel value produced here stays in
  `0..255`);
* `float64` palette threshold values become `ℚ`.  Every hand-authored
  threshold is a multiple of 2.5 and every derived midpoint a multiple of
  1.25, all exactly representable as `float64`, and `float64` addition and
  halving are exact on them, so rational arithmetic coincides with the Go
  float arithmetic on every value the palette code manipulates;
* the signal pipeline (`plotSpectrogram`) works over `ℝ` and `ℂ`; the one
  place where IEEE special values matter (the dBFS conversion, where a zero
  magnitude yields `Log10(0) = -Inf`) is modelled by the four-case type
  `GoFloat`;
* the raster context of the `gg` library becomes `Context`, a record of the
  dimensions, the current brush color, and the pixel grid as a function;
* the WAV reader becomes a function from an abstract decoded file
  (validity flag, declared sample rate, declared bit depth, raw integer
  samples) to `Except`, mirroring the check/convert order of `ReadAudioFile`.
-/

/-- Embeds Go's `color.RGBA`; each field is a `uint8` in the source. -/
structure RGBA where
  R : ℕ
  G : ℕ
  B : ℕ
  A : ℕ
deriving DecidableEq, Repr

/-- Embeds `type ColorThreshold struct { Value float64; Color color.RGBA }`. -/
structure ColorThreshold where
  Value : ℚ
  Color : RGBA
deriving DecidableEq, Repr

/-- Embeds `var baseColorPalette = []ColorThreshold{...}` (lines 26-76). -/
def baseColorPalette : List ColorThreshold := [
  ⟨-120, ⟨0, 0, 0, 255⟩⟩,
  ⟨-117.5, ⟨0, 0, 17, 255⟩⟩,
  ⟨-115, ⟨0, 0, 34, 255⟩⟩,
  ⟨-112.5, ⟨0, 0, 51, 255⟩⟩,
  ⟨-110, ⟨0, 0, 69, 255⟩⟩,
  ⟨-107.5, ⟨0, 0, 86, 255⟩⟩,
  ⟨-105, ⟨0, 0, 104, 255⟩⟩,
  ⟨-102.5, ⟨0, 0, 121, 255⟩⟩,
  ⟨-100, ⟨0, 0, 139, 255⟩⟩,
  ⟨-97.5, ⟨0, 0, 155, 255⟩⟩,
  ⟨-95, ⟨0, 0, 172, 255⟩⟩,
  ⟨-92.5, ⟨0, 0, 188, 255⟩⟩,
  ⟨-90, ⟨0, 0, 205, 255⟩⟩,
  ⟨-87.5, ⟨0, 0, 218, 255⟩⟩,
  ⟨-85, ⟨0, 0, 230, 255⟩⟩,
  ⟨-82.5, ⟨0, 0, 242, 255⟩⟩,
  ⟨-80, ⟨0, 0, 255, 255⟩⟩,
  ⟨-77.5, ⟨19, 0, 223, 255⟩⟩,
  ⟨-75, ⟨38, 0, 192, 255⟩⟩,
  ⟨-72.5, ⟨57, 0, 161, 255⟩⟩,
  ⟨-70, ⟨75, 0, 130, 255⟩⟩,
  ⟨-67.5, ⟨94, 0, 150, 255⟩⟩,
  ⟨-65, ⟨112, 0, 171, 255⟩⟩,
  ⟨-62.5, ⟨130, 0, 191, 255⟩⟩,
  ⟨-60, ⟨148, 0, 211, 255⟩⟩,
  ⟨-57.5, ⟨146, 0, 193, 255⟩⟩,
  ⟨-55, ⟨144, 0, 175, 255⟩⟩,
  ⟨-52.5, ⟨142, 0, 157, 255⟩⟩,
  ⟨-50, ⟨139, 0, 139, 255⟩⟩,
  ⟨-47.5, ⟨168, 0, 104, 255⟩⟩,
  ⟨-45, ⟨197, 0, 69, 255⟩⟩,
  ⟨-42.5, ⟨226, 0, 34, 255⟩⟩,
  ⟨-40, ⟨255, 0, 0, 255⟩⟩,
  ⟨-37.5, ⟨255, 18, 0, 255⟩⟩,
  ⟨-35, ⟨255, 35, 0, 255⟩⟩,
  ⟨-32.5, ⟨255, 52, 0, 255⟩⟩,
  ⟨-30, ⟨255, 69, 0, 255⟩⟩,
  ⟨-27.5, ⟨255, 93, 0, 255⟩⟩,
  ⟨-25, ⟨255, 117, 0, 255⟩⟩,
  ⟨-22.5, ⟨255, 141, 0, 255⟩⟩,
  ⟨-20, ⟨255, 165, 0, 255⟩⟩,
  ⟨-17.5, ⟨255, 188, 0, 255⟩⟩,
  ⟨-15, ⟨255, 210, 0, 255⟩⟩,
  ⟨-12.5, ⟨255, 233, 0, 255⟩⟩,
  ⟨-10, ⟨255, 255, 0, 255⟩⟩,
  ⟨-7.5, ⟨255, 255, 64, 255⟩⟩,
  ⟨-5, ⟨255, 255, 128, 255⟩⟩,
  ⟨-2.5, ⟨255, 255, 192, 255⟩⟩,
  ⟨0, ⟨255, 255, 255, 255⟩⟩]

/-- Go's `uint8(f)` conversion for the nonnegative in-range floats produced by
`interpolateColor`: truncation toward zero, which on nonnegative values is the
floor. -/
def toU8 (q : ℚ) : ℕ := (Int.floor q).toNat

/-- Embeds `interpolateColor` (lines 81-92): per-channel linear interpolation,
alpha fixed to 255. -/
def interpolateColor (c1 c2 : RGBA) (fraction : ℚ) : RGBA :=
  ⟨toU8 ((c1.R : ℚ) + fraction * ((c2.R : ℚ) - (c1.R : ℚ))),
   toU8 ((c1.G : ℚ) + fraction * ((c2.G : ℚ) - (c1.G : ℚ))),
   toU8 ((c1.B : ℚ) + fraction * ((c2.B : ℚ) - (c1.B : ℚ))),
   255⟩

/-- The interpolated threshold appended between a consecutive pair inside the
loop of `generateFineGrainedPalette` (lines 105-110): average value, color
interpolated at fraction 0.5. -/
def midThreshold (a b : ColorThreshold) : ColorThreshold :=
  ⟨(a.Value + b.Value) / 2, interpolateColor a.Color b.Color (1 / 2)⟩

/-- The loop of `generateFineGrainedPalette` (lines 101-111): for each index
`i < len(base)-1` append `base[i]` and the midpoint of `base[i]`,`base[i+1]`,
phrased as structural recursion over consecutive pairs. -/
def fineLoop : List ColorThreshold → List ColorThreshold
  | a :: b :: rest => a :: midThreshold a b :: fineLoop (b :: rest)
  | _ => []

/-- Embeds `generateFineGrainedPalette` (lines 96-117).  After the loop the Go
code appends `base[len(base)-1]`; for an empty `base` that index is `-1`,
out of bounds, and the Go program panics — modelled by `none`. -/
def generateFineGrainedPalette (base : List ColorThreshold) :
    Option (List ColorThreshold) :=
  match base.getLast? with
  | some lastT => some (fineLoop base ++ [lastT])
  | none => none

/-- Embeds `var colorPalette = generateFineGrainedPalette(baseColorPalette)`
(line 120).  `baseColorPalette` is nonempty, so the Go call does not panic and
the option is `some`; its value is extracted here. -/
def colorPalette : List ColorThreshold :=
  (generateFineGrainedPalette baseColorPalette).getD []

-- Helper lemmas about the refinement loop.

theorem fineLoop_length : ∀ l : List ColorThreshold,
    (fineLoop l).length = 2 * (l.length - 1)
  | [] => rfl
  | [_] => rfl
  | a :: b :: rest => by
      have ih := fineLoop_length (b :: rest)
      simp only [fineLoop, List.length_cons] at ih ⊢
      omega

theorem fineLoop_append_get_even :
    ∀ (l : List ColorThreshold) (t : ColorThreshold),
      l.getLast? = some t → ∀ i : ℕ, (fineLoop l ++ [t])[2 * i]? = l[i]?
  | [], t, h => by simp at h
  | [a], t, h => by
      simp only [List.getLast?_singleton, Option.some.injEq] at h
      subst h
      intro i
      match i with
      | 0 => rfl
      | i + 1 => simp [fineLoop]; omega
  | a :: b :: rest, t, h => by
      have hlast : (b :: rest).getLast? = some t := by
        simpa [List.getLast?_cons_cons] using h
      intro i
      match i with
      | 0 => rfl
      | i + 1 =>
          have ih := fineLoop_append_get_even (b :: rest) t hlast i
          have h2 : 2 * (i + 1) = 2 * i + 1 + 1 := by omega
          simp only [fineLoop, List.cons_append, h2, List.getElem?_cons_succ]
          exact ih

theorem fineLoop_append_get_odd :
    ∀ (l : List ColorThreshold) (t : ColorThreshold),
      l.getLast? = some t → ∀ i : ℕ, ∀ a b : ColorThreshold,
      l[i]? = some a → l[i + 1]? = some b →
      (fineLoop l ++ [t])[2 * i + 1]? = some (midThreshold a b)
  | [], t, h => by simp at h
  | [x], t, h => by
      intro i a b ha hb
      match i with
      | 0 => simp at hb
      | i + 1 => simp at hb
  | x :: y :: rest, t, h => by
      have hlast : (y :: rest).getLast? = some t := by
        simpa [List.getLast?_cons_cons] using h
      intro i a b ha hb
      match i with
      | 0 =>
          simp only [List.getElem?_cons_zero, Option.some.injEq] at ha
          simp only [List.getElem?_cons_succ, List.getElem?_cons_zero,
            Option.some.injEq] at hb
          subst ha; subst hb
          simp [fineLoop]
      | i + 1 =>
          have ih := fineLoop_append_get_odd (y :: rest) t hlast i a b
            (by simpa using ha) (by simpa using hb)
          have h2 : 2 * (i + 1) + 1 = 2 * i + 1 + 1 + 1 := by omega
          simp only [fineLoop, List.cons_append, h2, List.getElem?_cons_succ]
          exact ih

theorem fineLoop_append_head :
    ∀ (l : List ColorThreshold) (t : ColorThreshold),
      l.getLast? = some t → (fineLoop l ++ [t]).head? = l.head?
  | [], t, h => by simp at h
  | [a], t, h => by
      simp only [List.getLast?_singleton, Option.some.injEq] at h
      subst h; rfl
  | a :: b :: rest, t, h => rfl

theorem fineLoop_append_chain :
    ∀ (l : List ColorThreshold) (t : ColorThreshold),
      l.getLast? = some t →
      l.Chain' (fun a b => a.Value < b.Value) →
      (fineLoop l ++ [t]).Chain' (fun a b => a.Value < b.Value)
  | [], t, h, _ => by simp at h
  | [a], t, h, _ => by
      simp only [List.getLast?_singleton, Option.some.injEq] at h
      subst h
      simp [fineLoop]
  | a :: b :: rest, t, h, hc => by
      have hlast : (b :: rest).getLast? = some t := by
        simpa [List.getLast?_cons_cons] using h
      have hab : a.Value < b.Value := (List.chain'_cons.mp hc).1
      have hrest : (b :: rest).Chain' (fun a b => a.Value < b.Value) :=
        (List.chain'_cons.mp hc).2
      have ih := fineLoop_append_chain (b :: rest) t hlast hrest
      have hhead : (fineLoop (b :: rest) ++ [t]).head? = some b :=
        (fineLoop_append_head (b :: rest) t hlast).trans rfl
      have hmid1 : a.Value < (midThreshold a b).Value := by
        simp only [midThreshold]
        linarith
      have hmid2 : (midThreshold a b).Value < b.Value := by
        simp only [midThreshold]
        linarith
      show List.Chain' _ (a :: midThreshold a b :: (fineLoop (b :: rest) ++ [t]))
      refine List.chain'_cons.mpr ⟨hmid1, ?_⟩
      refine List.chain'_cons'.mpr ⟨?_, ih⟩
      intro y hy
      rw [hhead] at hy
      simp only [Option.mem_def, Option.some.injEq] at hy
      subst hy
      exact hmid2

theorem toU8_half_blend (a b : ℕ) :
    toU8 ((a : ℚ) + (1 / 2) * ((b : ℚ) - (a : ℚ))) = (a + b) / 2 := by
  have h1 : (a : ℚ) + (1 / 2) * ((b : ℚ) - (a : ℚ))
      = ((a + b : ℕ) : ℤ) / ((2 : ℕ) : ℚ) := by
    push_cast
    ring
  rw [toU8, h1]
  rw [Rat.floor_intCast_div_natCast]
  rw [show ((a + b : ℕ) : ℤ) / ((2 : ℕ) : ℤ) = (((a + b) / 2 : ℕ) : ℤ) from
    (Int.ofNat_div (a + b) 2).symm]
  exact Int.toNat_natCast _

theorem midThreshold_channels (a b : ColorThreshold) :
    midThreshold a b =
      ⟨(a.Value + b.Value) / 2,
       ⟨(a.Color.R + b.Color.R) / 2, (a.Color.G + b.Color.G) / 2,
        (a.Color.B + b.Color.B) / 2, 255⟩⟩ := by
  simp only [midThreshold, interpolateColor, toU8_half_blend]

/-- C1: for every strictly ascending nonempty base palette,
`generateFineGrainedPalette` succeeds and returns a palette with exactly
`2k - 1` thresholds, strictly ascending in value, that keeps every base
threshold at the even positions and inserts at each odd position `2i + 1` a
threshold whose value is the arithmetic mean of `base[i]` and `base[i+1]` and
whose color is the per-channel 0.5 blend (channel-wise floor mean, as computed
by the `uint8` conversion) with alpha 255. -/
theorem generateFineGrainedPalette_spec (base fine : List ColorThreshold)
    (hasc : base.Chain' (fun a b => a.Value < b.Value))
    (hne : base ≠ [])
    (hfine : generateFineGrainedPalette base = some fine) :
    fine.length = 2 * base.length - 1 ∧
    fine.Chain' (fun a b => a.Value < b.Value) ∧
    (∀ i : ℕ, fine[2 * i]? = base[i]?) ∧
    (∀ i : ℕ, ∀ a b : ColorThreshold,
      base[i]? = some a → base[i + 1]? = some b →
      fine[2 * i + 1]? = some ⟨(a.Value + b.Value) / 2,
        ⟨(a.Color.R + b.Color.R) / 2, (a.Color.G + b.Color.G) / 2,
         (a.Color.B + b.Color.B) / 2, 255⟩⟩) := by
  rcases hlast : base.getLast? with _ | t
  · exact absurd (List.getLast?_eq_none_iff.mp hlast) hne
  · have hfine' : fine = fineLoop base ++ [t] := by
      simp only [generateFineGrainedPalette, hlast, Option.some.injEq] at hfine
      exact hfine.symm
    subst hfine'
    have hlen : 0 < base.length := List.length_pos.mpr hne
    refine ⟨?_, ?_, ?_, ?_⟩
    · simp only [List.length_append, fineLoop_length, List.length_singleton]
      omega
    · exact fineLoop_append_chain base t hlast hasc
    · exact fineLoop_append_get_even base t hlast
    · intro i a b ha hb
      rw [fineLoop_append_get_odd base t hlast i a b ha hb,
        midThreshold_channels]

/-- Witness for C1 at the hand-authored base palette: its 49 thresholds are
strictly ascending, and the refined `colorPalette` satisfies the conclusion. -/
theorem generateFineGrainedPalette_spec_witness :
    (baseColorPalette.Chain' (fun a b => a.Value < b.Value) ∧
     baseColorPalette ≠ [] ∧
     generateFineGrainedPalette baseColorPalette = some colorPalette ∧
     baseColorPalette.length = 49) ∧
    (colorPalette.length = 2 * baseColorPalette.length - 1 ∧
     colorPalette.Chain' (fun a b => a.Value < b.Value) ∧
     (∀ i : ℕ, colorPalette[2 * i]? = baseColorPalette[i]?) ∧
     (∀ i : ℕ, ∀ a b : ColorThreshold,
       baseColorPalette[i]? = some a → baseColorPalette[i + 1]? = some b →
       colorPalette[2 * i + 1]? = some ⟨(a.Value + b.Value) / 2,
         ⟨(a.Color.R + b.Color.R) / 2, (a.Color.G + b.Color.G) / 2,
          (a.Color.B + b.Color.B) / 2, 255⟩⟩)) :=
  ⟨⟨by simp only [baseColorPalette, List.chain'_cons, List.chain'_singleton,
      and_true]; norm_num,
    by simp [baseColorPalette], rfl, by decide⟩,
   generateFineGrainedPalette_spec baseColorPalette colorPalette
     (by simp only [baseColorPalette, List.chain'_cons, List.chain'_singleton,
       and_true]; norm_num)
     (by simp [baseColorPalette]) rfl⟩

/-- C10: `generateFineGrainedPalette` is defined only for nonempty base
palettes — on the empty palette the trailing `base[len(base)-1]` access is out
of bounds (a Go panic, modelled by `none`) — and for every nonempty base the
first and last base thresholds are kept unchanged as the first and last
thresholds of the refined palette. -/
theorem generateFineGrainedPalette_empty_endpoints :
    generateFineGrainedPalette [] = none ∧
    ∀ base : List ColorThreshold, base ≠ [] →
      ∃ fine, generateFineGrainedPalette base = some fine ∧
        fine.head? = base.head? ∧ fine.getLast? = base.getLast? := by
  refine ⟨rfl, ?_⟩
  intro base hne
  rcases hlast : base.getLast? with _ | t
  · exact absurd (List.getLast?_eq_none_iff.mp hlast) hne
  · refine ⟨fineLoop base ++ [t], ?_, ?_, ?_⟩
    · simp only [generateFineGrainedPalette, hlast]
    · exact fineLoop_append_head base t hlast
    · simp [List.getLast?_concat, hlast]

/-- Witness for C10 at a concrete nonempty one-element base palette. -/
theorem generateFineGrainedPalette_empty_endpoints_witness :
    ([⟨0, ⟨0, 0, 0, 255⟩⟩] : List ColorThreshold) ≠ [] ∧
    ∃ fine, generateFineGrainedPalette [⟨0, ⟨0, 0, 0, 255⟩⟩] = some fine ∧
      fine.head? = ([⟨0, ⟨0, 0, 0, 255⟩⟩] : List ColorThreshold).head? ∧
      fine.getLast? = ([⟨0, ⟨0, 0, 0, 255⟩⟩] : List ColorThreshold).getLast? :=
  ⟨by simp,
   generateFineGrainedPalette_empty_endpoints.2 [⟨0, ⟨0, 0, 0, 255⟩⟩] (by simp)⟩

/-- Embeds `getColorForDBFS` (lines 124-135) on finite float inputs,
modelled as `ℚ` (every palette threshold value is exactly representable as a
`float64`, so `<=` on these rationals agrees with the Go float comparison):
scan `colorPalette` in order, return the color of the first threshold with
`dBFS <= threshold.Value`, and otherwise return white from the explicit
default branch on line 134. -/
def getColorForDBFS (dBFS : ℚ) : RGBA :=
  match colorPalette.find? (fun threshold => decide (dBFS ≤ threshold.Value)) with
  | some threshold => threshold.Color
  | none => ⟨255, 255, 255, 255⟩

/-- The index of the threshold whose color `getColorForDBFS` returns.  When no
threshold qualifies the scan index is `colorPalette.length`, one past the last
threshold, matching the default branch. -/
def lookupIdx (dBFS : ℚ) : ℕ :=
  colorPalette.findIdx (fun threshold => decide (dBFS ≤ threshold.Value))

-- Generic scan lemmas.

theorem find?_eq_getElem?_findIdx {α : Type} (p : α → Bool) :
    ∀ l : List α, l.find? p = l[l.findIdx p]?
  | [] => rfl
  | a :: l => by
      cases h : p a
      · simp [List.find?_cons, h, List.findIdx_cons,
          find?_eq_getElem?_findIdx p l]
      · simp [List.find?_cons, h, List.findIdx_cons]

theorem findIdx_mono_pred {α : Type} (p q : α → Bool)
    (himp : ∀ a, q a = true → p a = true) :
    ∀ l : List α, l.findIdx p ≤ l.findIdx q
  | [] => le_refl 0
  | a :: l => by
      cases hq : q a
      · cases hp : p a
        · simpa [List.findIdx_cons, hp, hq] using
            Nat.succ_le_succ (findIdx_mono_pred p q himp l)
        · simp [List.findIdx_cons, hp, hq]
      · have hp := himp a hq
        simp [List.findIdx_cons, hp, hq]

theorem find?_first {α : Type} (p : α → Bool) :
    ∀ (l : List α) (i : ℕ) (hi : i < l.length),
      (∀ j (hj : j < i), p (l.get ⟨j, lt_trans hj hi⟩) = false) →
      p (l.get ⟨i, hi⟩) = true → l.find? p = some (l.get ⟨i, hi⟩)
  | a :: l, 0, hi => by
      intro _ hp
      have hpa : p a = true := by simpa using hp
      simp [List.find?_cons, hpa]
  | a :: l, i + 1, hi => by
      intro hfirst hp
      have ha : p a = false := hfirst 0 (Nat.succ_pos i)
      have hi' : i < l.length := by
        simpa [Nat.succ_lt_succ_iff] using hi
      have ih := find?_first p l i hi'
        (fun j hj => hfirst (j + 1) (Nat.succ_lt_succ hj)) hp
      simpa [List.find?_cons, ha] using ih

-- Concrete facts about the refined palette that need no rational arithmetic:
-- they only inspect the list spine and the untouched base entries.

theorem colorPalette_eq_append :
    colorPalette = fineLoop baseColorPalette ++ [⟨0, ⟨255, 255, 255, 255⟩⟩] :=
  rfl

theorem colorPalette_length_pos : 0 < colorPalette.length := by decide

theorem colorPalette_getLast :
    colorPalette.getLast? = some ⟨0, ⟨255, 255, 255, 255⟩⟩ := by
  rw [colorPalette_eq_append]
  exact List.getLast?_concat _

theorem baseColorPalette_chain :
    baseColorPalette.Chain' (fun a b => a.Value < b.Value) := by
  simp only [baseColorPalette, List.chain'_cons, List.chain'_singleton,
    and_true]
  norm_num

theorem colorPalette_chain :
    colorPalette.Chain' (fun a b => a.Value < b.Value) := by
  rw [colorPalette_eq_append]
  exact fineLoop_append_chain baseColorPalette _ (by decide)
    baseColorPalette_chain

theorem chain'_last_bound :
    ∀ (l : List ColorThreshold) (t : ColorThreshold),
      l.Chain' (fun a b => a.Value < b.Value) → l.getLast? = some t →
      ∀ x ∈ l, x.Value ≤ t.Value
  | [], t, _, h => by simp at h
  | [a], t, _, h => by
      simp only [List.getLast?_singleton, Option.some.injEq] at h
      subst h
      intro x hx
      rw [List.mem_singleton.mp hx]
  | a :: b :: rest, t, hc, h => by
      have hlast : (b :: rest).getLast? = some t := by
        simpa [List.getLast?_cons_cons] using h
      have hab := (List.chain'_cons.mp hc).1
      have hrest := (List.chain'_cons.mp hc).2
      have ih := chain'_last_bound (b :: rest) t hrest hlast
      intro x hx
      rcases List.mem_cons.mp hx with rfl | hx'
      · exact le_trans (le_of_lt hab) (ih b (List.mem_cons_self b rest))
      · exact ih x hx'

/-- C2: `getColorForDBFS` returns the color of the first threshold of the
refined palette (scanned in ascending order) whose value is `≥` the input,
and for every input strictly greater than the last (maximum) threshold value
the explicit default branch fires and its white result is exactly the color
of the last, brightest threshold. -/
theorem getColorForDBFS_spec :
    (∀ (v : ℚ) (i : ℕ) (hi : i < colorPalette.length),
      (∀ j (hj : j < i), (colorPalette.get ⟨j, lt_trans hj hi⟩).Value < v) →
      v ≤ (colorPalette.get ⟨i, hi⟩).Value →
      getColorForDBFS v = (colorPalette.get ⟨i, hi⟩).Color) ∧
    (∀ (v : ℚ) (lastT : ColorThreshold),
      colorPalette.getLast? = some lastT → lastT.Value < v →
      getColorForDBFS v = lastT.Color) := by
  constructor
  · intro v i hi hfirst hp
    have hfind := find?_first (fun t => decide (v ≤ t.Value)) colorPalette i hi
      (fun j hj => by simpa using not_le.mpr (hfirst j hj))
      (by simpa using hp)
    simp [getColorForDBFS, hfind]
  · intro v lastT hlast hv
    have hbound := chain'_last_bound colorPalette lastT colorPalette_chain hlast
    have hnone : colorPalette.find? (fun t => decide (v ≤ t.Value)) = none := by
      apply List.find?_eq_none.mpr
      intro x hx
      simpa using not_le.mpr (lt_of_le_of_lt (hbound x hx) hv)
    have hlastT : lastT = ⟨0, ⟨255, 255, 255, 255⟩⟩ := by
      rw [colorPalette_getLast] at hlast
      exact (Option.some.injEq _ _ ▸ hlast).symm
    rw [hlastT]
    simp [getColorForDBFS, hnone]

/-- Witness for C2: the input `-120` hits the first threshold, and the input
`1` exceeds the maximum threshold value `0` and gets the last color. -/
theorem getColorForDBFS_spec_witness :
    ((-120 : ℚ) ≤ (colorPalette.get ⟨0, colorPalette_length_pos⟩).Value ∧
     getColorForDBFS (-120) =
       (colorPalette.get ⟨0, colorPalette_length_pos⟩).Color) ∧
    (colorPalette.getLast? = some ⟨0, ⟨255, 255, 255, 255⟩⟩ ∧ (0 : ℚ) < 1 ∧
     getColorForDBFS 1 =
       (⟨0, ⟨255, 255, 255, 255⟩⟩ : ColorThreshold).Color) := by
  have h0 : colorPalette.get ⟨0, colorPalette_length_pos⟩
      = ⟨-120, ⟨0, 0, 0, 255⟩⟩ := rfl
  have hle : (-120 : ℚ) ≤ (colorPalette.get ⟨0, colorPalette_length_pos⟩).Value := by
    rw [h0]
  refine ⟨⟨hle, ?_⟩, colorPalette_getLast, by norm_num, ?_⟩
  · exact getColorForDBFS_spec.1 (-120) 0 colorPalette_length_pos
      (fun j hj => absurd hj (Nat.not_lt_zero j)) hle
  · exact getColorForDBFS_spec.2 1 ⟨0, ⟨255, 255, 255, 255⟩⟩
      colorPalette_getLast (by norm_num)

/-- C3: the scan index of `getColorForDBFS` is monotone — for `v1 < v2` the
index of the threshold returned for `v1` is at most the index returned for
`v2`, with the default branch counting as index `colorPalette.length`, one
past the last threshold — and `lookupIdx` really is the index of the
threshold whose color `getColorForDBFS` returns. -/
theorem getColorForDBFS_monotone :
    (∀ v1 v2 : ℚ, v1 < v2 → lookupIdx v1 ≤ lookupIdx v2) ∧
    (∀ v : ℚ, getColorForDBFS v =
      ((colorPalette[lookupIdx v]?).map ColorThreshold.Color).getD
        ⟨255, 255, 255, 255⟩) ∧
    (∀ v : ℚ, lookupIdx v ≤ colorPalette.length) := by
  refine ⟨?_, ?_, ?_⟩
  · intro v1 v2 h12
    exact findIdx_mono_pred _ _
      (fun a ha => by
        simp only [decide_eq_true_eq] at ha ⊢
        exact le_of_lt (lt_of_lt_of_le h12 ha))
      colorPalette
  · intro v
    have h := find?_eq_getElem?_findIdx
      (fun t => decide (v ≤ t.Value)) colorPalette
    unfold getColorForDBFS lookupIdx
    rw [← h]
    cases hf : colorPalette.find? (fun t => decide (v ≤ t.Value)) <;> simp [hf]
  · intro v
    exact List.findIdx_le_length _

/-- Witness for C3 at the concrete pair `-119 < 100` and probe input `5`. -/
theorem getColorForDBFS_monotone_witness :
    ((-119 : ℚ) < 100 ∧ lookupIdx (-119) ≤ lookupIdx 100) ∧
    getColorForDBFS 5 =
      ((colorPalette[lookupIdx 5]?).map ColorThreshold.Color).getD
        ⟨255, 255, 255, 255⟩ ∧
    lookupIdx 0 ≤ colorPalette.length :=
  ⟨⟨by norm_num, getColorForDBFS_monotone.1 (-119) 100 (by norm_num)⟩,
   getColorForDBFS_monotone.2.1 5, getColorForDBFS_monotone.2.2 0⟩

/-- The values a Go `float64` dBFS computation can take: NaN, the two
infinities, or a finite value (modelled as a real).  Finite values that occur
are exactly representable up to the idealization of reals for floats; the
special values are what `math.Log10` and float division produce at the edge
cases. -/
inductive GoFloat where
  | nan
  | ninf
  | pinf
  | fin (x : ℝ)

/-- Go's `<=` between a float dBFS value and a (finite, exactly representable)
palette threshold value: NaN and `+Inf` compare false against every
threshold, `-Inf` compares true. -/
noncomputable def GoFloat.leQ : GoFloat → ℚ → Bool
  | .nan, _ => false
  | .ninf, _ => true
  | .pinf, _ => false
  | .fin x, q => decide (x ≤ (q : ℝ))

/-- `getColorForDBFS` (lines 124-135) as called from `plotSpectrogram`, on the
full float domain including the non-finite values that a zero magnitude
produces: the same ascending scan with the same explicit white default. -/
noncomputable def getColorForDBFSF (dBFS : GoFloat) : RGBA :=
  match colorPalette.find? (fun threshold => dBFS.leQ threshold.Value) with
  | some threshold => threshold.Color
  | none => ⟨255, 255, 255, 255⟩

/-- Go float division `a / b` for a finite nonnegative numerator as it occurs
in `mag / math.Sqrt(windowEnergy)`: division by zero yields NaN for a zero
numerator and `±Inf` otherwise. -/
noncomputable def goDiv (a b : ℝ) : GoFloat :=
  if b = 0 then (if a = 0 then .nan else if 0 < a then .pinf else .ninf)
  else .fin (a / b)

/-- Go's `math.Log10` on a finite argument: negative arguments yield NaN,
zero yields `-Inf`. -/
noncomputable def goLog10 (x : ℝ) : GoFloat :=
  if x < 0 then .nan else if x = 0 then .ninf else .fin (Real.logb 10 x)

/-- Go's `math.Log10` extended to the special values its argument can take. -/
noncomputable def goLog10F : GoFloat → GoFloat
  | .nan => .nan
  | .ninf => .nan
  | .pinf => .pinf
  | .fin x => goLog10 x

/-- The dBFS conversion of `plotSpectrogram` (line 176):
`dBFS := (20 * math.Log10(mag/math.Sqrt(windowEnergy))) - 10`, with the float
special values threaded through the affine step (`20 * (±Inf) - 10 = ±Inf`,
NaN propagates). -/
noncomputable def goDBFS (mag wE : ℝ) : GoFloat :=
  match goLog10F (goDiv mag (Real.sqrt wE)) with
  | .nan => .nan
  | .ninf => .ninf
  | .pinf => .pinf
  | .fin l => .fin (20 * l - 10)

/-- Models `window.Hann(L)` of the go-dsp library used on line 147, per the
spec formula `w[i] = 0.5 * (1 - cos(2*pi*i/(fftSize-1)))` (the library
special-cases `L = 1` to `[1]`). -/
noncomputable def hann (n : ℕ) : List ℝ :=
  if n = 1 then [1]
  else (List.range n).map
    (fun i => 0.5 * (1 - Real.cos (2 * Real.pi * i / ((n - 1 : ℕ) : ℝ))))

/-- The window-energy loop of `plotSpectrogram` (lines 148-151):
`windowEnergy += w * w` over the window coefficients, starting from `0.0`. -/
noncomputable def windowEnergyOf (ws : List ℝ) : ℝ :=
  ws.foldl (fun acc w => acc + w * w) 0

theorem windowEnergyOf_eq_sum (ws : List ℝ) :
    windowEnergyOf ws = (ws.map (fun w => w ^ 2)).sum := by
  have key : ∀ (l : List ℝ) (a : ℝ),
      l.foldl (fun acc w => acc + w * w) a = a + (l.map (fun w => w ^ 2)).sum := by
    intro l
    induction l with
    | nil => intro a; simp
    | cons w l ih =>
        intro a
        simp only [List.foldl_cons, List.map_cons, List.sum_cons, ih]
        ring
  simpa using key ws 0

/-- C6: the dBFS value computed by `plotSpectrogram` for a frequency-bin
coefficient `c` and the window energy accumulated from coefficients `ws`
equals `20 * log10(|c| / sqrt(windowEnergy)) - 10`, where `|c|` is the
Euclidean norm of the real and imaginary parts and the window energy is the
sum of the squared window coefficients (stated for nonzero coefficients and
positive energy, where the float computation is finite). -/
theorem loudness_dBFS_formula (c : ℂ) (ws : List ℝ) (hc : c ≠ 0)
    (hw : 0 < (ws.map (fun w => w ^ 2)).sum) :
    goDBFS (Complex.abs c) (windowEnergyOf ws) =
      GoFloat.fin (20 * Real.logb 10
        (Real.sqrt (c.re ^ 2 + c.im ^ 2) /
          Real.sqrt ((ws.map (fun w => w ^ 2)).sum)) - 10) := by
  have habs : Complex.abs c = Real.sqrt (c.re ^ 2 + c.im ^ 2) := by
    rw [Complex.abs_apply, Complex.normSq_apply]
    ring_nf
  have hmag : 0 < Complex.abs c := Complex.abs.pos hc
  have hsq : 0 < Real.sqrt ((ws.map (fun w => w ^ 2)).sum) :=
    Real.sqrt_pos.mpr hw
  have hq : 0 < Complex.abs c / Real.sqrt ((ws.map (fun w => w ^ 2)).sum) :=
    div_pos hmag hsq
  have h1 : goDiv (Complex.abs c)
      (Real.sqrt ((ws.map (fun w => w ^ 2)).sum)) =
      .fin (Complex.abs c / Real.sqrt ((ws.map (fun w => w ^ 2)).sum)) := by
    rw [goDiv, if_neg hsq.ne']
  have h2 : goLog10 (Complex.abs c /
      Real.sqrt ((ws.map (fun w => w ^ 2)).sum)) =
      .fin (Real.logb 10
        (Complex.abs c / Real.sqrt ((ws.map (fun w => w ^ 2)).sum))) := by
    rw [goLog10, if_neg (not_lt.mpr (le_of_lt hq)), if_neg hq.ne']
  rw [goDBFS, windowEnergyOf_eq_sum, h1]
  show (match goLog10 _ with
    | .nan => GoFloat.nan | .ninf => .ninf | .pinf => .pinf
    | .fin l => .fin (20 * l - 10)) = _
  rw [h2, habs]

/-- Witness for C6 at the coefficient `I` and the one-coefficient window
`[1]`. -/
theorem loudness_dBFS_formula_witness :
    (Complex.I ≠ 0 ∧ 0 < (([1] : List ℝ).map (fun w => w ^ 2)).sum) ∧
    goDBFS (Complex.abs Complex.I) (windowEnergyOf [1]) =
      GoFloat.fin (20 * Real.logb 10
        (Real.sqrt (Complex.I.re ^ 2 + Complex.I.im ^ 2) /
          Real.sqrt ((([1] : List ℝ).map (fun w => w ^ 2)).sum)) - 10) :=
  ⟨⟨Complex.I_ne_zero, by norm_num⟩,
   loudness_dBFS_formula Complex.I [1] Complex.I_ne_zero (by norm_num)⟩

/-- The windowed frame of `plotSpectrogram` (lines 156-166): the slice of
`fftSize` samples starting at `start = x * hopSize`, multiplied pointwise by
the window (`src[i-start] = pcm[i] * windowFunc[i-start]`); indices are in
bounds under the guard `end <= len(pcm)`, so `getD` with default `0` agrees
with the Go slice indexing there. -/
noncomputable def frameSrc (pcm wf : List ℝ) (start n : ℕ) : List ℝ :=
  (List.range n).map (fun i => pcm.getD (start + i) 0 * wf.getD i 0)

/-- Models `fft.FFTReal` of the go-dsp library (line 169): the discrete
Fourier transform of the (real) input, one complex coefficient per input
index. -/
noncomputable def fftReal (x : List ℝ) : List ℂ :=
  (List.range x.length).map (fun k : ℕ =>
    ∑ j ∈ Finset.range x.length,
      (x.getD j 0 : ℂ) *
        Complex.exp (-2 * Real.pi * Complex.I * ((j : ℂ) * (k : ℂ)) /
          (x.length : ℂ)))

/-- The raster state of the `gg` context used by `plotSpectrogram`: the
dimensions, the current brush color (set by `SetColor`), and the pixel grid
as a function from coordinates to colors. -/
structure Context where
  width : ℕ
  height : ℕ
  color : RGBA
  pix : ℕ → ℕ → RGBA

/-- `gg.NewContext(w, h)` (line 141): a fresh image, all pixels zeroed
(transparent black). -/
def ggNewContext (w h : ℕ) : Context :=
  ⟨w, h, ⟨0, 0, 0, 0⟩, fun _ _ => ⟨0, 0, 0, 0⟩⟩

/-- `dc.SetColor(c)` (lines 143, 182): set the brush color. -/
def Context.setColor (ctx : Context) (c : RGBA) : Context :=
  ⟨ctx.width, ctx.height, c, ctx.pix⟩

/-- `dc.Clear()` (line 144): fill every pixel with the brush color. -/
def Context.clear (ctx : Context) : Context :=
  ⟨ctx.width, ctx.height, ctx.color, fun _ _ => ctx.color⟩

/-- `dc.SetPixel(x, y)` (line 184): paint the pixel at `(x, y)` with the
brush color. -/
def Context.setPixel (ctx : Context) (x y : ℕ) : Context :=
  ⟨ctx.width, ctx.height, ctx.color,
   fun a b => if a = x ∧ b = y then ctx.color else ctx.pix a b⟩

/-- The color computed for one frequency bin inside the inner loop of
`plotSpectrogram` (lines 172-182): magnitude of the spectrum coefficient at
the bin, dBFS conversion, palette lookup. -/
noncomputable def colorOfBin (spectrum : List ℂ) (wE : ℝ) (y : ℕ) : RGBA :=
  getColorForDBFSF (goDBFS (Complex.abs (spectrum.getD y 0)) wE)

/-- The inner loop of `plotSpectrogram` (lines 172-185): for each bin
`y < fftSize/2` with `y < height`, set the brush to the bin color and paint
the pixel at column `x`, row `height - y - 1`. -/
noncomputable def paintCol (ctx : Context) (x : ℕ) (spectrum : List ℂ)
    (wE : ℝ) (fftSize : ℕ) : Context :=
  (List.range (min (fftSize / 2) ctx.height)).foldl
    (fun c y =>
      (c.setColor (colorOfBin spectrum wE y)).setPixel x (ctx.height - y - 1))
    ctx

/-- The outer loop of `plotSpectrogram` (lines 154-186), with the remaining
iteration count (`width - x`) as fuel: stop at `x = width`, break as soon as
`end = x*hopSize + fftSize` runs past the samples, otherwise window the
frame, transform it and paint the column. -/
noncomputable def plotLoop (pcm wf : List ℝ) (wE : ℝ) (fftSize hopSize : ℕ) :
    ℕ → ℕ → Context → Context
  | 0, _, ctx => ctx
  | fuel + 1, x, ctx =>
      if pcm.length < x * hopSize + fftSize then ctx
      else plotLoop pcm wf wE fftSize hopSize fuel (x + 1)
        (paintCol ctx x (fftReal (frameSrc pcm wf (x * hopSize) fftSize))
          wE fftSize)

/-- Embeds `plotSpectrogram` (lines 139-190): fresh context, background
cleared to opaque black, Hann window and its energy computed once, then the
column loop. -/
noncomputable def plotSpectrogram (pcm : List ℝ)
    (width height fftSize hopSize : ℕ) : Context :=
  plotLoop pcm (hann fftSize) (windowEnergyOf (hann fftSize)) fftSize hopSize
    width 0 (((ggNewContext width height).setColor ⟨0, 0, 0, 255⟩).clear)

/-- The number of loop iterations of `plotSpectrogram` that paint a column:
same fuel, start index and break guard as `plotLoop`, counting instead of
painting. -/
def framesLoop (N fftSize hopSize : ℕ) : ℕ → ℕ → ℕ
  | 0, _ => 0
  | fuel + 1, x =>
      if N < x * hopSize + fftSize then 0
      else framesLoop N fftSize hopSize fuel (x + 1) + 1

/-- The frames processed by `plotSpectrogram` on `N` samples with the given
`width`, `fftSize` and `hopSize`. -/
def framesProcessed (N width fftSize hopSize : ℕ) : ℕ :=
  framesLoop N fftSize hopSize width 0

/-- The closed-form frame count of the specification:
`floor((N - fftSize)/hopSize) + 1` when `N ≥ fftSize`, else zero. -/
def availableFrames (N fftSize hopSize : ℕ) : ℕ :=
  if fftSize ≤ N then (N - fftSize) / hopSize + 1 else 0

/-- The color `plotSpectrogram` paints for column `x`, bin `y`: the bin color
of the transformed windowed frame starting at `x * hopSize`. -/
noncomputable def binPixelColor (pcm : List ℝ) (fftSize hopSize x y : ℕ) :
    RGBA :=
  colorOfBin (fftReal (frameSrc pcm (hann fftSize) (x * hopSize) fftSize))
    (windowEnergyOf (hann fftSize)) y

-- Small structural facts about the raster context.

theorem paintStep_pix (c : Context) (col : RGBA) (x r a b : ℕ) :
    ((c.setColor col).setPixel x r).pix a b =
      if a = x ∧ b = r then col else c.pix a b := rfl

theorem paintCol_height (ctx : Context) (x : ℕ) (s : List ℂ) (wE : ℝ)
    (f : ℕ) : (paintCol ctx x s wE f).height = ctx.height := by
  unfold paintCol
  have key : ∀ (l : List ℕ) (c : Context),
      (l.foldl (fun c y =>
        (c.setColor (colorOfBin s wE y)).setPixel x (ctx.height - y - 1))
        c).height = c.height := by
    intro l
    induction l with
    | nil => intro c; rfl
    | cons y l ih => intro c; rw [List.foldl_cons, ih]; rfl
  exact key _ ctx

theorem foldPaint_pix (x H : ℕ) (col : ℕ → RGBA) :
    ∀ (k : ℕ), k ≤ H → ∀ (c : Context) (a b : ℕ),
      ((List.range k).foldl
        (fun c y => (c.setColor (col y)).setPixel x (H - y - 1)) c).pix a b =
      if a = x ∧ H - k ≤ b ∧ b < H then col (H - 1 - b) else c.pix a b
  | 0, _, c, a, b => by
      rw [List.range_zero, List.foldl_nil, if_neg]
      rintro ⟨_, h1, h2⟩
      omega
  | k + 1, hk, c, a, b => by
      rw [List.range_succ, List.foldl_append, List.foldl_cons, List.foldl_nil,
        paintStep_pix]
      by_cases hab : a = x ∧ b = H - k - 1
      · rw [if_pos hab, if_pos ⟨hab.1, by omega, by omega⟩]
        have harg : H - 1 - b = k := by omega
        rw [harg]
      · rw [if_neg hab,
          foldPaint_pix x H col k (Nat.le_of_succ_le hk) c a b]
        by_cases h1 : a = x ∧ H - k ≤ b ∧ b < H
        · rw [if_pos h1, if_pos ⟨h1.1, by omega, h1.2.2⟩]
        · rw [if_neg h1, if_neg]
          rintro ⟨ha, hb1, hb2⟩
          have hbne : ¬(b = H - k - 1) := fun hb => hab ⟨ha, hb⟩
          exact h1 ⟨ha, by omega, hb2⟩

theorem paintCol_pix (ctx : Context) (x : ℕ) (s : List ℂ) (wE : ℝ) (f : ℕ)
    (a b : ℕ) :
    (paintCol ctx x s wE f).pix a b =
      if a = x ∧ ctx.height - min (f / 2) ctx.height ≤ b ∧ b < ctx.height
      then colorOfBin s wE (ctx.height - 1 - b)
      else ctx.pix a b := by
  unfold paintCol
  exact foldPaint_pix x ctx.height (colorOfBin s wE)
    (min (f / 2) ctx.height) (min_le_right _ _) ctx a b

theorem plotLoop_pix_lt (pcm wf : List ℝ) (wE : ℝ) (f hop : ℕ) :
    ∀ (fuel x0 : ℕ) (ctx : Context) (a b : ℕ), a < x0 →
      (plotLoop pcm wf wE f hop fuel x0 ctx).pix a b = ctx.pix a b
  | 0, x0, ctx, a, b, ha => rfl
  | fuel + 1, x0, ctx, a, b, ha => by
      show (if pcm.length < x0 * hop + f then ctx
        else plotLoop pcm wf wE f hop fuel (x0 + 1)
          (paintCol ctx x0 (fftReal (frameSrc pcm wf (x0 * hop) f)) wE f)).pix
          a b = ctx.pix a b
      by_cases hg : pcm.length < x0 * hop + f
      · rw [if_pos hg]
      · rw [if_neg hg,
          plotLoop_pix_lt pcm wf wE f hop fuel (x0 + 1) _ a b (by omega),
          paintCol_pix, if_neg]
        rintro ⟨h1, _⟩
        omega

theorem plotLoop_pix (pcm wf : List ℝ) (wE : ℝ) (f hop H : ℕ) :
    ∀ (fuel x0 : ℕ) (ctx : Context), ctx.height = H → ∀ (a b : ℕ), x0 ≤ a →
      (plotLoop pcm wf wE f hop fuel x0 ctx).pix a b =
        if a < x0 + framesLoop pcm.length f hop fuel x0 ∧
           H - min (f / 2) H ≤ b ∧ b < H
        then colorOfBin (fftReal (frameSrc pcm wf (a * hop) f)) wE
          (H - 1 - b)
        else ctx.pix a b
  | 0, x0, ctx, hH, a, b, hx => by
      simp only [plotLoop, framesLoop]
      rw [if_neg]
      rintro ⟨h1, _⟩
      omega
  | fuel + 1, x0, ctx, hH, a, b, hx => by
      simp only [plotLoop, framesLoop]
      by_cases hg : pcm.length < x0 * hop + f
      · simp only [if_pos hg]
        rw [if_neg]
        rintro ⟨h1, _⟩
        omega
      · simp only [if_neg hg]
        have hH' : (paintCol ctx x0
            (fftReal (frameSrc pcm wf (x0 * hop) f)) wE f).height = H := by
          rw [paintCol_height, hH]
        by_cases hax : a = x0
        · subst hax
          rw [plotLoop_pix_lt pcm wf wE f hop fuel (a + 1) _ a b (by omega),
            paintCol_pix, hH]
          by_cases hrow : H - min (f / 2) H ≤ b ∧ b < H
          · rw [if_pos ⟨rfl, hrow⟩, if_pos ⟨by omega, hrow⟩]
          · rw [if_neg (by tauto), if_neg (by tauto)]
        · have hax' : x0 + 1 ≤ a := by omega
          have hpix : (paintCol ctx x0
              (fftReal (frameSrc pcm wf (x0 * hop) f)) wE f).pix a b
              = ctx.pix a b := by
            rw [paintCol_pix, if_neg]
            rintro ⟨h1, _⟩
            exact hax h1
          have hcnt : x0 + 1 + framesLoop pcm.length f hop fuel (x0 + 1)
              = x0 + (framesLoop pcm.length f hop fuel (x0 + 1) + 1) := by
            omega
          rw [plotLoop_pix pcm wf wE f hop H fuel (x0 + 1) _ hH' a b hax',
            hpix, hcnt]

theorem framesLoop_eq (N f hop : ℕ) (hhop : 0 < hop) :
    ∀ (fuel x : ℕ), framesLoop N f hop fuel x =
      min fuel (if x * hop + f ≤ N then (N - f - x * hop) / hop + 1 else 0)
  | 0, x => by simp [framesLoop]
  | fuel + 1, x => by
      simp only [framesLoop]
      by_cases hg : N < x * hop + f
      · rw [if_pos hg, if_neg (by omega)]
        simp
      · rw [if_neg hg, framesLoop_eq N f hop hhop fuel (x + 1),
          if_pos (by omega : x * hop + f ≤ N)]
        have hmul : (x + 1) * hop = x * hop + hop := by ring
        by_cases hn : (x + 1) * hop + f ≤ N
        · rw [if_pos hn]
          have hle : hop ≤ N - f - x * hop := by omega
          have hsub : N - f - (x + 1) * hop = N - f - x * hop - hop := by
            omega
          have hdiv : (N - f - x * hop) / hop
              = (N - f - x * hop - hop) / hop + 1 :=
            Nat.div_eq_sub_div hhop hle
          rw [hsub]
          omega
        · rw [if_neg hn]
          have hlt : N - f - x * hop < hop := by omega
          rw [Nat.div_eq_of_lt hlt]
          omega

theorem framesProcessed_eq_min (N width f hop : ℕ) (hhop : 0 < hop) :
    framesProcessed N width f hop =
      min width (availableFrames N f hop) := by
  unfold framesProcessed availableFrames
  rw [framesLoop_eq N f hop hhop width 0]
  simp only [Nat.zero_mul, Nat.zero_add, Nat.sub_zero]

/-- The per-pixel characterization of `plotSpectrogram`: a pixel carries the
bin color when its column is among the painted frames and its row is in the
painted band, and otherwise keeps the opaque black background set by the
initial `Clear`. -/
theorem plotSpectrogram_pix (pcm : List ℝ) (width height f hop : ℕ)
    (hhop : 0 < hop) (a b : ℕ) :
    (plotSpectrogram pcm width height f hop).pix a b =
      if a < min width (availableFrames pcm.length f hop) ∧
         height - min (f / 2) height ≤ b ∧ b < height
      then binPixelColor pcm f hop a (height - 1 - b)
      else ⟨0, 0, 0, 255⟩ := by
  unfold plotSpectrogram binPixelColor
  rw [plotLoop_pix pcm (hann f) (windowEnergyOf (hann f)) f hop height width
    0 _ rfl a b (Nat.zero_le a)]
  rw [show framesLoop pcm.length f hop width 0
      = min width (availableFrames pcm.length f hop) from
    framesProcessed_eq_min pcm.length width f hop hhop]
  rw [Nat.zero_add]
  rfl

/-- C4: with positive `fftSize` and `hopSize` and a `width` at least the
available frame count, the column loop of `plotSpectrogram` processes exactly
`floor((N - fftSize)/hopSize) + 1` frames when `N ≥ fftSize` and zero frames
when `N < fftSize`; and the windowed frame for column `x` depends only on the
samples `x*hopSize .. x*hopSize + fftSize - 1`. -/
theorem plotSpectrogram_frameCount (N width f hop : ℕ)
    (hf : 0 < f) (hhop : 0 < hop)
    (hw : availableFrames N f hop ≤ width) :
    framesProcessed N width f hop = availableFrames N f hop ∧
    (f ≤ N → availableFrames N f hop = (N - f) / hop + 1) ∧
    (N < f → availableFrames N f hop = 0) ∧
    (∀ (pcm pcm' wf : List ℝ) (x : ℕ),
      (∀ j, x * hop ≤ j → j < x * hop + f → pcm.getD j 0 = pcm'.getD j 0) →
      frameSrc pcm wf (x * hop) f = frameSrc pcm' wf (x * hop) f) := by
  refine ⟨?_, fun h => by rw [availableFrames, if_pos h],
    fun h => by rw [availableFrames, if_neg (by omega)], ?_⟩
  · rw [framesProcessed_eq_min N width f hop hhop]
    omega
  · intro pcm pcm' wf x hagree
    unfold frameSrc
    apply List.map_congr_left
    intro i hi
    have hi' : i < f := List.mem_range.mp hi
    rw [hagree (x * hop + i) (by omega) (by omega)]

/-- Witness for C4 at the spec's concrete numbers: 10000 samples, fftSize
2048, hopSize 1024 give 8 frames. -/
theorem plotSpectrogram_frameCount_witness :
    ((0 : ℕ) < 2048 ∧ (0 : ℕ) < 1024 ∧
      availableFrames 10000 2048 1024 ≤ 8) ∧
    (framesProcessed 10000 8 2048 1024 = availableFrames 10000 2048 1024 ∧
     availableFrames 10000 2048 1024 = 8) :=
  ⟨⟨by norm_num, by norm_num, by decide⟩,
   (plotSpectrogram_frameCount 10000 8 2048 1024 (by norm_num) (by norm_num)
     (by decide)).1,
   by decide⟩

/-- C5: when the caller-supplied `width` exceeds the available frame count,
`plotSpectrogram` silently stops at the last available frame (it is a total
function — no error value exists in its type), and every column at or beyond
the first unavailable frame keeps the opaque black `(0,0,0,255)` background
set by the initial clear. -/
theorem plotSpectrogram_truncation (pcm : List ℝ) (width height f hop : ℕ)
    (hhop : 0 < hop)
    (hw : availableFrames pcm.length f hop < width) :
    ∀ a b : ℕ, availableFrames pcm.length f hop ≤ a → b < height →
      (plotSpectrogram pcm width height f hop).pix a b = ⟨0, 0, 0, 255⟩ := by
  intro a b ha hb
  rw [plotSpectrogram_pix pcm width height f hop hhop a b, if_neg]
  rintro ⟨h1, _⟩
  have := min_le_right width (availableFrames pcm.length f hop)
  omega

/-- Witness for C5: an empty sample buffer with requested width 3 leaves all
columns black. -/
theorem plotSpectrogram_truncation_witness :
    ((0 : ℕ) < 1 ∧ availableFrames (List.length ([] : List ℝ)) 1 1 < 3) ∧
    (∀ a b : ℕ, availableFrames (List.length ([] : List ℝ)) 1 1 ≤ a →
      b < 2 → (plotSpectrogram [] 3 2 1 1).pix a b = ⟨0, 0, 0, 255⟩) :=
  ⟨⟨by norm_num, by decide⟩,
   plotSpectrogram_truncation [] 3 2 1 1 (by norm_num) (by decide)⟩

/-- C7: every painted frame `x` gets exactly the pixels for the frequency
bins `y < min(fftSize/2, height)`: bin `y`'s color lands at column `x`, row
`height - y - 1` (so bin 0, the lowest frequency, is the bottom row), and
every row of column `x` outside that band keeps the black background. -/
theorem plotSpectrogram_pixelPlacement (pcm : List ℝ)
    (width height f hop x : ℕ) (hhop : 0 < hop) (hxw : x < width)
    (hx : x * hop + f ≤ pcm.length) :
    (∀ y : ℕ, y < min (f / 2) height →
      (plotSpectrogram pcm width height f hop).pix x (height - y - 1) =
        binPixelColor pcm f hop x y) ∧
    (∀ r : ℕ, r < height - min (f / 2) height →
      (plotSpectrogram pcm width height f hop).pix x r = ⟨0, 0, 0, 255⟩) := by
  have hfN : f ≤ pcm.length := by omega
  have hxd : x ≤ (pcm.length - f) / hop := by
    rw [Nat.le_div_iff_mul_le hhop]
    omega
  have hxa : x < min width (availableFrames pcm.length f hop) := by
    unfold availableFrames
    rw [if_pos hfN]
    omega
  constructor
  · intro y hy
    have hyh : y < height := lt_of_lt_of_le hy (min_le_right _ _)
    rw [plotSpectrogram_pix pcm width height f hop hhop x (height - y - 1),
      if_pos ⟨hxa, by omega, by omega⟩]
    congr 1
    omega
  · intro r hr
    rw [plotSpectrogram_pix pcm width height f hop hhop x r, if_neg]
    rintro ⟨_, h1, h2⟩
    omega

/-- Witness for C7: two zero samples, width 1, height 2, fftSize 2,
hopSize 1; frame 0 is painted. -/
theorem plotSpectrogram_pixelPlacement_witness :
    ((0 : ℕ) < 1 ∧ 0 * 1 + 2 ≤ (List.replicate 2 (0 : ℝ)).length) ∧
    ((∀ y : ℕ, y < min (2 / 2) 2 →
      (plotSpectrogram (List.replicate 2 (0 : ℝ)) 1 2 2 1).pix 0
        (2 - y - 1) = binPixelColor (List.replicate 2 (0 : ℝ)) 2 1 0 y) ∧
     (∀ r : ℕ, r < 2 - min (2 / 2) 2 →
      (plotSpectrogram (List.replicate 2 (0 : ℝ)) 1 2 2 1).pix 0 r =
        ⟨0, 0, 0, 255⟩)) :=
  ⟨⟨by norm_num, by simp⟩,
   plotSpectrogram_pixelPlacement (List.replicate 2 (0 : ℝ)) 1 2 2 1 0
     (by norm_num) (by norm_num) (by simp)⟩

/-- C8: on an all-zero sample buffer every pixel of the rendered image equals
the lowest-threshold color of the palette, opaque black: every painted bin
has magnitude 0, its dBFS is `-Inf`, which compares below all thresholds and
hits the first (lowest) threshold, and the unpainted background is the same
black — no non-finite value leaks into the image (stated for windows with
positive energy, as with the `fftSize = 2048` used by the program). -/
theorem plotSpectrogram_allZero (pcm : List ℝ) (width height f hop : ℕ)
    (hz : ∀ s ∈ pcm, s = (0 : ℝ)) (hhop : 0 < hop)
    (hE : 0 < windowEnergyOf (hann f)) :
    (∀ a b : ℕ, a < width → b < height →
      (plotSpectrogram pcm width height f hop).pix a b = ⟨0, 0, 0, 255⟩) ∧
    colorPalette.head?.map ColorThreshold.Color = some ⟨0, 0, 0, 255⟩ := by
  obtain ⟨rest, hcp⟩ : ∃ rest,
      colorPalette = ⟨-120, ⟨0, 0, 0, 255⟩⟩ :: rest := ⟨_, rfl⟩
  have hgetD : ∀ j, pcm.getD j 0 = 0 := by
    intro j
    rcases h : pcm[j]? with _ | v
    · rw [List.getD_eq_getElem?_getD, h]
      rfl
    · rw [List.getD_eq_getElem?_getD, h]
      rcases List.getElem?_eq_some.mp h with ⟨hlt, rfl⟩
      simpa using hz _ (List.getElem_mem hlt)
  have hsrc0 : ∀ start j, (frameSrc pcm (hann f) start f).getD j 0 = 0 := by
    intro start j
    unfold frameSrc
    rw [List.getD_eq_getElem?_getD, List.getElem?_map]
    rcases lt_or_ge j f with hj | hj
    · rw [List.getElem?_range hj]
      simp only [Option.map_some', Option.getD_some]
      rw [hgetD, zero_mul]
    · rw [List.getElem?_eq_none (by simpa using hj)]
      rfl
  have hfft0gen : ∀ (xs : List ℝ), (∀ j, xs.getD j 0 = 0) →
      ∀ y, (fftReal xs).getD y 0 = 0 := by
    intro xs hxs y
    unfold fftReal
    rw [List.getD_eq_getElem?_getD, List.getElem?_map]
    rcases lt_or_ge y xs.length with hy | hy
    · rw [List.getElem?_range hy]
      simp only [Option.map_some', Option.getD_some]
      apply Finset.sum_eq_zero
      intro j hj
      rw [hxs j]
      simp
    · rw [List.getElem?_eq_none (by simpa using hy)]
      rfl
  have hfft0 : ∀ start y,
      (fftReal (frameSrc pcm (hann f) start f)).getD y 0 = 0 :=
    fun start y => hfft0gen _ (hsrc0 start) y
  have hdbfs : goDBFS 0 (windowEnergyOf (hann f)) = .ninf := by
    have hsq : 0 < Real.sqrt (windowEnergyOf (hann f)) := Real.sqrt_pos.mpr hE
    unfold goDBFS
    rw [goDiv, if_neg hsq.ne', zero_div]
    show (match goLog10 0 with
      | .nan => GoFloat.nan | .ninf => .ninf | .pinf => .pinf
      | .fin l => .fin (20 * l - 10)) = .ninf
    rw [goLog10, if_neg (lt_irrefl 0), if_pos rfl]
  have hlookup : getColorForDBFSF .ninf = ⟨0, 0, 0, 255⟩ := by
    unfold getColorForDBFSF
    rw [hcp, List.find?_cons_of_pos _ rfl]
  have hbin : ∀ a y, binPixelColor pcm f hop a y = ⟨0, 0, 0, 255⟩ := by
    intro a y
    unfold binPixelColor colorOfBin
    rw [hfft0, map_zero, hdbfs, hlookup]
  refine ⟨?_, by rw [hcp]; rfl⟩
  intro a b ha hb
  rw [plotSpectrogram_pix pcm width height f hop hhop a b]
  by_cases hcond : a < min width (availableFrames pcm.length f hop) ∧
      height - min (f / 2) height ≤ b ∧ b < height
  · rw [if_pos hcond, hbin]
  · rw [if_neg hcond]

/-- Witness for C8: five zero samples, width 1, height 1, fftSize 3,
hopSize 1; the Hann window of length 3 has energy 1. -/
theorem plotSpectrogram_allZero_witness :
    ((∀ s ∈ List.replicate 5 (0 : ℝ), s = (0 : ℝ)) ∧ (0 : ℕ) < 1 ∧
     0 < windowEnergyOf (hann 3)) ∧
    ((∀ a b : ℕ, a < 1 → b < 1 →
      (plotSpectrogram (List.replicate 5 (0 : ℝ)) 1 1 3 1).pix a b =
        ⟨0, 0, 0, 255⟩) ∧
     colorPalette.head?.map ColorThreshold.Color = some ⟨0, 0, 0, 255⟩) := by
  have hz : ∀ s ∈ List.replicate 5 (0 : ℝ), s = (0 : ℝ) :=
    fun s hs => List.eq_of_mem_replicate hs
  have hE : 0 < windowEnergyOf (hann 3) := by
    have h1 : windowEnergyOf (hann 3) = 1 := by
      simp only [hann, windowEnergyOf]
      norm_num [List.range_succ]
    rw [h1]
    norm_num
  exact ⟨⟨hz, by norm_num, hE⟩,
    plotSpectrogram_allZero (List.replicate 5 (0 : ℝ)) 1 1 3 1 hz
      (by norm_num) hE⟩

/-- Embeds `const SampleRate = 48000` (line 19). -/
def SampleRate : ℕ := 48000

/-- The information `ReadAudioFile` consumes from the external WAV decoder:
whether the container is a valid WAV file, the declared sample rate and bit
depth, and the raw integer PCM samples the chunked `PCMBuffer` loop would
deliver. -/
structure AudioFile where
  valid : Bool
  sampleRate : ℕ
  bitDepth : ℕ
  data : List ℤ

/-- The error cases of `ReadAudioFile` (lines 211, 224, 237). -/
inductive ReadAudioError where
  | notValidWav
  | invalidSampleRate
  | unsupportedBitDepth
deriving DecidableEq

/-- The `switch decoder.BitDepth` of `ReadAudioFile` (lines 229-238): the
conversion divisor for the supported bit depths, `none` for the error
default. -/
def divisorFor : ℕ → Option ℚ
  | 16 => some 32768
  | 24 => some 8388608
  | 32 => some 2147483648
  | _ => none

/-- Embeds `ReadAudioFile` (lines 193-265): validity check, sample-rate
check, bit-depth switch, then the conversion loop `float64(sample)/divisor`
over all samples.  Sample values are integers of at most 32 bits and the
divisors are powers of two, so the float conversion and division are exact;
they are modelled as exact rationals. -/
def ReadAudioFile (file : AudioFile) : Except ReadAudioError (List ℚ) :=
  if file.valid = false then .error .notValidWav
  else if file.sampleRate ≠ SampleRate then .error .invalidSampleRate
  else match divisorFor file.bitDepth with
    | none => .error .unsupportedBitDepth
    | some d => .ok (file.data.map (fun sample : ℤ => (sample : ℚ) / d))

theorem divisorFor_eq_none (d : ℕ) (h16 : d ≠ 16) (h24 : d ≠ 24)
    (h32 : d ≠ 32) : divisorFor d = none := by
  unfold divisorFor
  split
  · exact absurd rfl h16
  · exact absurd rfl h24
  · exact absurd rfl h32
  · rfl

/-- C9: on a valid WAV container, `ReadAudioFile` returns an error — and
never any sample data — whenever the declared sample rate differs from the
constant 48000 or the declared bit depth is not 16, 24 or 32; both checks
run before the conversion loop, so the result does not depend on the sample
data at all and no partial output exists. -/
theorem ReadAudioFile_rejects (file : AudioFile) (hv : file.valid = true)
    (herr : file.sampleRate ≠ 48000 ∨
      (file.bitDepth ≠ 16 ∧ file.bitDepth ≠ 24 ∧ file.bitDepth ≠ 32)) :
    (∃ e, ReadAudioFile file = Except.error e) ∧
    (∀ out, ReadAudioFile file ≠ Except.ok out) ∧
    (∀ data', ReadAudioFile ⟨file.valid, file.sampleRate, file.bitDepth, data'⟩
      = ReadAudioFile file) ∧
    SampleRate = 48000 := by
  obtain ⟨v, sr, bd, data⟩ := file
  replace hv : v = true := hv
  subst hv
  replace herr : sr ≠ 48000 ∨ (bd ≠ 16 ∧ bd ≠ 24 ∧ bd ≠ 32) := herr
  have key : ∃ e : ReadAudioError, ∀ d : List ℤ,
      ReadAudioFile ⟨true, sr, bd, d⟩ = Except.error e := by
    rcases herr with hsr | hbd
    · exact ⟨.invalidSampleRate, fun d => by
        unfold ReadAudioFile
        simp [SampleRate, hsr]⟩
    · by_cases hsr : sr = 48000
      · exact ⟨.unsupportedBitDepth, fun d => by
          unfold ReadAudioFile
          simp [SampleRate, hsr,
            divisorFor_eq_none bd hbd.1 hbd.2.1 hbd.2.2]⟩
      · exact ⟨.invalidSampleRate, fun d => by
          unfold ReadAudioFile
          simp [SampleRate, hsr]⟩
  rcases key with ⟨e, he⟩
  refine ⟨⟨e, he data⟩, ?_, ?_, rfl⟩
  · intro out hout
    have hcontra := he data
    rw [hout] at hcontra
    exact Except.noConfusion hcontra
  · intro data'
    rw [he data', he data]

/-- Witness for C9: a valid file with sample rate 44100 (not 48000) and bit
depth 16 is rejected independently of its data. -/
theorem ReadAudioFile_rejects_witness :
    ((⟨true, 44100, 16, [5]⟩ : AudioFile).valid = true ∧
     ((44100 : ℕ) ≠ 48000 ∨ ((16 : ℕ) ≠ 16 ∧ (16 : ℕ) ≠ 24 ∧
       (16 : ℕ) ≠ 32))) ∧
    ((∃ e, ReadAudioFile ⟨true, 44100, 16, [5]⟩ = Except.error e) ∧
     (∀ out, ReadAudioFile ⟨true, 44100, 16, [5]⟩ ≠ Except.ok out) ∧
     (∀ data', ReadAudioFile ⟨true, 44100, 16, data'⟩
       = ReadAudioFile ⟨true, 44100, 16, [5]⟩) ∧
     SampleRate = 48000) :=
  ⟨⟨rfl, Or.inl (by norm_num)⟩,
   ReadAudioFile_rejects ⟨true, 44100, 16, [5]⟩ rfl (Or.inl (by norm_num))⟩
